import Mathlib

/-!
Verification of the SPH-EXA time-advancement core against its design
specification.

The development shallowly embeds the code of

* `sph/include/sph/ts_rungs.hpp` — the rung-based adaptive timestep
  scheduler (`sortGroupDt`, `timestepRangeGpu`, `computeRungTimestep`);
* the N-body propagator `NbodyProp::step` — the resize-and-pad phase and
  the global MPI reductions of potential energy and traversal statistics;
* `MomentumSquarePatch::compute` — the square-patch momentum kernel;
* `sph/include/sph/hydro_std/density.hpp` — `computeDensity` and its
  buffer-swap protocol around `computeXMass`.

Machine `float`/`double` values are modelled as rationals (`ℚ`): every
operation the verified properties depend on (comparisons, sorting, binary
search, multiplication by powers of two, `int(log2 ·))` on exact ratios)
is exact in binary floating point as well, so the rational model is
faithful for these order-and-structure level properties.  Transcendental
helper kernels that the sources consume from headers outside this source
set (`exp`, `sqrt`, `pow`, `artificial_viscosity`, `wharmonic_derivative`,
`computeXMass`) are abstracted as opaque function parameters, since the
verified claims do not depend on their values.
-/

namespace SPHEXA

/-! ## Rung-based timestep scheduler (`sph/ts_rungs.hpp`)

`computeRungTimestep` runs on the device path (`IsDeviceVector`): it sorts
the per-group timesteps ascending in place, extracts the local minimum and
the timestep of the fastest 40% fraction, min-reduces those two scalars
across all MPI ranks, derives the number of rungs from the ratio, and
binary-searches the sorted array for each power-of-two rung boundary. -/

/-- Result of `cstone::lowerBoundGpu` (`std::lower_bound` semantics) on the
sorted array `xs`: the index of the first element that is `≥ v`, or
`xs.length` when no element is.  On a sorted list, binary search and the
first-index search coincide. -/
def lowerBound (xs : List ℚ) (v : ℚ) : ℕ := xs.findIdx (fun x => decide (v ≤ x))

/-- The ascending in-place key sort performed by `sortGroupDt` via
`cstone::sortByKeyGpu` on the `groupDt` array. -/
def sortDt (dts : List ℚ) : List ℚ := dts.mergeSort (fun a b => decide (a ≤ b))

/-- Index read by `timestepRangeGpu` for the fast-fraction reference value:
`cstone::LocalIndex(fastFraction * numGroups)` with `fastFraction = 0.4`,
i.e. `⌊0.4 * n⌋ = 2 * n / 5` in exact arithmetic. -/
def refIdx (n : ℕ) : ℕ := 2 * n / 5

/-- C's `int(log2(q))` — truncation of the base-2 logarithm toward zero —
for positive rationals, exact.  For `q ≥ 1` this is `⌊log2 q⌋`, computed as
`Nat.log 2 ⌊q⌋`; for `0 < q < 1` truncation toward zero gives
`-⌊log2 (1/q)⌋`. -/
def ilog2 (q : ℚ) : ℤ :=
  if 1 ≤ q then (Nat.log 2 (Rat.floor q).toNat : ℤ)
  else -(Nat.log 2 (Rat.floor q⁻¹).toNat : ℤ)

/-- The `Timestep` descriptor produced by the scheduler, with the fields
written by `computeRungTimestep`: `{minDt, numRungs, substep, rungRanges,
dt_drift}`.  `rungRanges` has `maxNumRungs + 1` entries; `dt_drift` is
zero-initialised.  The maximum rung count `Timestep::maxNumRungs` is a
fixed configuration ceiling and is carried as an explicit parameter
`maxRungs` below. -/
structure Timestep where
  minDt : ℚ
  numRungs : ℤ
  substep : ℤ
  rungRanges : List ℕ
  dt_drift : List ℚ
deriving DecidableEq

/-- `minDtGlobal[0]` for a single rank: the first element of the sorted
`groupDt` array (`memcpyD2H(groupDt, 1, ...)`). -/
def minDtOf (dts : List ℚ) : ℚ := (sortDt dts).getD 0 0

/-- `minDtGlobal[1]` for a single rank: the sorted `groupDt` value at the
fast-fraction index (`memcpyD2H(groupDt + LocalIndex(0.4 * numGroups), ...)`). -/
def refDtOf (dts : List ℚ) : ℚ := (sortDt dts).getD (refIdx dts.length) 0

/-- `sph::computeRungTimestep` (device path) for one rank, for which the
`MPI_MIN` all-reduction of the two scalars is the identity:

1. sort `groupDt` ascending in place (`sortGroupDt`);
2. `minDt = groupDt[0]`, `refDt = groupDt[⌊0.4 n⌋]` (`timestepRangeGpu`);
3. `numRungs = min(int(log2(refDt / minDt)) + 1, maxNumRungs)`;
4. `rungRanges[0] = 0`, all further entries pre-filled with `numGroups`,
   then for each `rung ∈ [1, numRungs)` overwritten with
   `lowerBound(groupDt, (1 << rung) * minDt)`;
5. `substep = 0`, `dt_drift` all zeros. -/
def computeRungTimestep (maxRungs : ℕ) (dts : List ℚ) : Timestep :=
  let n := dts.length
  let sorted := sortDt dts
  let minDt := minDtOf dts
  let refDt := refDtOf dts
  let numRungs : ℤ := min (ilog2 (refDt / minDt) + 1) (maxRungs : ℤ)
  let rungRanges : List ℕ :=
    (List.range (maxRungs + 1)).map (fun (r : ℕ) =>
      if r = 0 then 0
      else if (r : ℤ) < numRungs then lowerBound sorted ((2 ^ r : ℚ) * minDt)
      else n)
  { minDt := minDt
    numRungs := numRungs
    substep := 0
    rungRanges := rungRanges
    dt_drift := List.replicate maxRungs 0 }

/-! ### Basic facts about the sort and the binary search -/

theorem sortDt_sorted (dts : List ℚ) : (sortDt dts).Sorted (· ≤ ·) :=
  List.sorted_mergeSort' dts

theorem sortDt_perm (dts : List ℚ) : (sortDt dts).Perm dts :=
  List.mergeSort_perm dts _

theorem sortDt_length (dts : List ℚ) : (sortDt dts).length = dts.length :=
  (sortDt_perm dts).length_eq

theorem sortDt_idem (dts : List ℚ) : sortDt (sortDt dts) = sortDt dts :=
  List.mergeSort_eq_self (sortDt_sorted dts)

theorem getD_eq_get (l : List ℚ) (i : ℕ) (h : i < l.length) :
    l.getD i 0 = l.get ⟨i, h⟩ := by
  rw [List.getD_eq_getElem l 0 h]; rfl

/-- In a `≤`-sorted list, entries are monotone in the index. -/
theorem sorted_getD_mono {l : List ℚ} (hs : l.Sorted (· ≤ ·)) {i j : ℕ}
    (hij : i ≤ j) (hj : j < l.length) : l.getD i 0 ≤ l.getD j 0 := by
  have hi : i < l.length := lt_of_le_of_lt hij hj
  rw [getD_eq_get l i hi, getD_eq_get l j hj]
  exact hs.rel_get_of_le hij

theorem lowerBound_le_length (xs : List ℚ) (v : ℚ) :
    lowerBound xs v ≤ xs.length :=
  List.findIdx_le_length _

/-- Entries at or after the lower-bound index of a sorted list are `≥ v`. -/
theorem le_getD_of_lowerBound_le {xs : List ℚ} (hs : xs.Sorted (· ≤ ·))
    {v : ℚ} {i : ℕ} (hle : lowerBound xs v ≤ i) (hi : i < xs.length) :
    v ≤ xs.getD i 0 := by
  have hfound : lowerBound xs v < xs.length := lt_of_le_of_lt hle hi
  have hp : decide (v ≤ xs[lowerBound xs v]) = true := List.findIdx_getElem (w := hfound)
  have hv : v ≤ xs[lowerBound xs v] := of_decide_eq_true hp
  have hmono : xs.getD (lowerBound xs v) 0 ≤ xs.getD i 0 := sorted_getD_mono hs hle hi
  rw [getD_eq_get xs _ hfound] at hmono
  exact le_trans hv hmono

/-- Entries before the lower-bound index are `< v`. -/
theorem getD_lt_of_lt_lowerBound {xs : List ℚ} {v : ℚ} {i : ℕ}
    (hlt : i < lowerBound xs v) (hi : i < xs.length) :
    xs.getD i 0 < v := by
  have hp : decide (v ≤ xs[i]) = false := List.not_of_lt_findIdx hlt
  have hv : ¬ v ≤ xs[i] := of_decide_eq_false hp
  rw [getD_eq_get xs i hi]
  exact lt_of_not_le hv

/-- `lowerBound` is monotone in the searched value. -/
theorem lowerBound_mono (xs : List ℚ) {v w : ℚ} (hvw : v ≤ w) :
    lowerBound xs v ≤ lowerBound xs w := by
  induction xs with
  | nil => simp [lowerBound]
  | cons a as ih =>
    by_cases hw : w ≤ a
    · have hv : v ≤ a := le_trans hvw hw
      simp [lowerBound, List.findIdx_cons, hv, hw]
    · by_cases hv : v ≤ a
      · simp [lowerBound, List.findIdx_cons, hv, hw]
      · simp only [lowerBound, List.findIdx_cons, decide_eq_true_eq] at ih ⊢
        simp [hv, hw, cond]
        exact ih

/-! ### Facts about `ilog2` -/

/-- For `q ≥ 1`, `ilog2 q` is the unique `k` with `2 ^ k ≤ q < 2 ^ (k + 1)`. -/
theorem ilog2_eq_of_pow_le_of_lt_pow {q : ℚ} {k : ℕ}
    (hlo : (2 ^ k : ℚ) ≤ q) (hhi : q < 2 ^ (k + 1)) : ilog2 q = k := by
  have h1 : (1 : ℚ) ≤ q := le_trans (one_le_pow₀ (by norm_num)) hlo
  have hfl_lo : ((2 ^ k : ℕ) : ℤ) ≤ Rat.floor q := by
    rw [Rat.le_floor]; push_cast; exact hlo
  have hfl_hi : Rat.floor q < ((2 ^ (k + 1) : ℕ) : ℤ) := by
    by_contra hcon
    push_neg at hcon
    have hle : (((2 ^ (k + 1) : ℕ) : ℤ) : ℚ) ≤ q := by
      refine le_trans ?_ (Rat.le_floor.mp le_rfl)
      exact_mod_cast hcon
    push_cast at hle
    exact absurd hhi (not_lt.mpr hle)
  have hnat_lo : 2 ^ k ≤ (Rat.floor q).toNat := by omega
  have hnat_hi : (Rat.floor q).toNat < 2 ^ (k + 1) := by omega
  have : Nat.log 2 (Rat.floor q).toNat = k :=
    Nat.log_eq_of_pow_le_of_lt_pow hnat_lo hnat_hi
  simp [ilog2, h1, this]

theorem ilog2_one : ilog2 1 = 0 :=
  ilog2_eq_of_pow_le_of_lt_pow (by norm_num) (by norm_num)

/-- For `q ≥ 1` the truncated logarithm is non-negative. -/
theorem ilog2_nonneg {q : ℚ} (h : 1 ≤ q) : 0 ≤ ilog2 q := by
  simp [ilog2, h]

/-! ### Structure of the scheduler output -/

theorem getD_map_range {α : Type} (f : ℕ → α) (d : α) (n i : ℕ) (hi : i < n) :
    ((List.range n).map f).getD i d = f i := by
  have hlen : i < ((List.range n).map f).length := by simpa using hi
  rw [List.getD_eq_getElem _ _ hlen, List.getElem_map, List.getElem_range]

/-- `rungRanges` as a tabulated function of the rung index. -/
theorem rungRanges_eq_map_range (maxRungs : ℕ) (dts : List ℚ) :
    (computeRungTimestep maxRungs dts).rungRanges =
      (List.range (maxRungs + 1)).map (fun (r : ℕ) =>
        if r = 0 then 0
        else if (r : ℤ) < (computeRungTimestep maxRungs dts).numRungs then
          lowerBound (sortDt dts) ((2 ^ r : ℚ) * minDtOf dts)
        else dts.length) := rfl

theorem rungRanges_length (maxRungs : ℕ) (dts : List ℚ) :
    (computeRungTimestep maxRungs dts).rungRanges.length = maxRungs + 1 := by
  rw [rungRanges_eq_map_range, List.length_map, List.length_range]

/-- Closed form of the `rungRanges` entry at index `r ≤ maxRungs`. -/
theorem rungRanges_getD (maxRungs : ℕ) (dts : List ℚ) {r : ℕ} (hr : r ≤ maxRungs) :
    (computeRungTimestep maxRungs dts).rungRanges.getD r 0 =
      if r = 0 then 0
      else if (r : ℤ) < (computeRungTimestep maxRungs dts).numRungs then
        lowerBound (sortDt dts) ((2 ^ r : ℚ) * minDtOf dts)
      else dts.length := by
  rw [rungRanges_eq_map_range, getD_map_range _ 0 (maxRungs + 1) r (Nat.lt_succ_of_le hr)]

/-- Every `rungRanges` entry is at most the number of groups. -/
theorem rungRanges_le_numGroups (maxRungs : ℕ) (dts : List ℚ) (r : ℕ) :
    (computeRungTimestep maxRungs dts).rungRanges.getD r 0 ≤ dts.length := by
  by_cases hr : r ≤ maxRungs
  · rw [rungRanges_getD maxRungs dts hr]
    split
    · exact Nat.zero_le _
    · split
      · exact le_trans (lowerBound_le_length _ _) (le_of_eq (sortDt_length dts))
      · exact le_rfl
  · have hlen : (computeRungTimestep maxRungs dts).rungRanges.length = maxRungs + 1 :=
      rungRanges_length maxRungs dts
    rw [List.getD_eq_getElem?_getD, List.getElem?_eq_none (by omega), Option.getD_none]
    exact Nat.zero_le _

/-! ### Facts about the reduced scalars `minDt` and `refDt` -/

theorem numRungs_eq (maxRungs : ℕ) (dts : List ℚ) :
    (computeRungTimestep maxRungs dts).numRungs =
      min (ilog2 (refDtOf dts / minDtOf dts) + 1) (maxRungs : ℤ) := rfl

theorem minDt_eq (maxRungs : ℕ) (dts : List ℚ) :
    (computeRungTimestep maxRungs dts).minDt = minDtOf dts := rfl

theorem length_pos_of_ne_nil {dts : List ℚ} (hne : dts ≠ []) : 0 < dts.length :=
  List.length_pos.mpr hne

theorem refIdx_lt {n : ℕ} (hn : 0 < n) : refIdx n < n := by
  unfold refIdx; omega

theorem sortDt_getD_mem {dts : List ℚ} {i : ℕ} (hi : i < dts.length) :
    (sortDt dts).getD i 0 ∈ dts := by
  have hi' : i < (sortDt dts).length := by rw [sortDt_length]; exact hi
  rw [List.getD_eq_getElem _ _ hi']
  exact (sortDt_perm dts).mem_iff.mp (List.getElem_mem hi')

theorem minDtOf_mem {dts : List ℚ} (hne : dts ≠ []) : minDtOf dts ∈ dts :=
  sortDt_getD_mem (length_pos_of_ne_nil hne)

theorem refDtOf_mem {dts : List ℚ} (hne : dts ≠ []) : refDtOf dts ∈ dts :=
  sortDt_getD_mem (refIdx_lt (length_pos_of_ne_nil hne))

theorem minDtOf_pos {dts : List ℚ} (hne : dts ≠ []) (hpos : ∀ x ∈ dts, 0 < x) :
    0 < minDtOf dts :=
  hpos _ (minDtOf_mem hne)

/-- The global minimum is a lower bound for every sorted entry. -/
theorem minDtOf_le_getD {dts : List ℚ} {i : ℕ} (hi : i < dts.length) :
    minDtOf dts ≤ (sortDt dts).getD i 0 :=
  sorted_getD_mono (sortDt_sorted dts) (Nat.zero_le i) (by rw [sortDt_length]; exact hi)

/-- The fast-fraction reference value is at least the minimum. -/
theorem minDtOf_le_refDtOf {dts : List ℚ} (hne : dts ≠ []) :
    minDtOf dts ≤ refDtOf dts :=
  minDtOf_le_getD (refIdx_lt (length_pos_of_ne_nil hne))

theorem one_le_ratio {dts : List ℚ} (hne : dts ≠ []) (hpos : ∀ x ∈ dts, 0 < x) :
    1 ≤ refDtOf dts / minDtOf dts :=
  (one_le_div (minDtOf_pos hne hpos)).mpr (minDtOf_le_refDtOf hne)

theorem one_le_numRungs {maxRungs : ℕ} {dts : List ℚ} (hne : dts ≠ [])
    (hpos : ∀ x ∈ dts, 0 < x) (hmax : 1 ≤ maxRungs) :
    1 ≤ (computeRungTimestep maxRungs dts).numRungs := by
  rw [numRungs_eq]
  have h0 : 0 ≤ ilog2 (refDtOf dts / minDtOf dts) :=
    ilog2_nonneg (one_le_ratio hne hpos)
  have h1 : (1 : ℤ) ≤ (maxRungs : ℤ) := by exact_mod_cast hmax
  omega

theorem numRungs_le_maxRungs (maxRungs : ℕ) (dts : List ℚ) :
    (computeRungTimestep maxRungs dts).numRungs ≤ (maxRungs : ℤ) := by
  rw [numRungs_eq]; exact min_le_right _ _

/-- C2 — For every non-empty, positive `perGroupDt` input and positive rung
ceiling, the `Timestep` returned by `computeRungTimestep` satisfies:
`rungRanges` is monotonically non-decreasing, `rungRanges[0] = 0`, every
entry from index `numRungs` onward equals the total group count, and
`1 ≤ numRungs ≤ maxRungs`. -/
theorem timestep_invariants (maxRungs : ℕ) (dts : List ℚ)
    (hne : dts ≠ []) (hpos : ∀ x ∈ dts, 0 < x) (hmax : 1 ≤ maxRungs) :
    (∀ i j : ℕ, i ≤ j → j ≤ maxRungs →
      (computeRungTimestep maxRungs dts).rungRanges.getD i 0 ≤
        (computeRungTimestep maxRungs dts).rungRanges.getD j 0) ∧
    (computeRungTimestep maxRungs dts).rungRanges.getD 0 0 = 0 ∧
    (∀ r : ℕ, (computeRungTimestep maxRungs dts).numRungs ≤ (r : ℤ) → r ≤ maxRungs →
      (computeRungTimestep maxRungs dts).rungRanges.getD r 0 = dts.length) ∧
    1 ≤ (computeRungTimestep maxRungs dts).numRungs ∧
    (computeRungTimestep maxRungs dts).numRungs ≤ (maxRungs : ℤ) := by
  have hminpos : 0 < minDtOf dts := minDtOf_pos hne hpos
  have hnr1 : 1 ≤ (computeRungTimestep maxRungs dts).numRungs :=
    one_le_numRungs hne hpos hmax
  refine ⟨?_, ?_, ?_, hnr1, numRungs_le_maxRungs maxRungs dts⟩
  · intro i j hij hj
    have hi : i ≤ maxRungs := le_trans hij hj
    rw [rungRanges_getD maxRungs dts hi, rungRanges_getD maxRungs dts hj]
    by_cases hi0 : i = 0
    · simp only [hi0, if_pos rfl]
      exact Nat.zero_le _
    · have hj0 : j ≠ 0 := by omega
      rw [if_neg hi0, if_neg hj0]
      by_cases hjlt : (j : ℤ) < (computeRungTimestep maxRungs dts).numRungs
      · have hilt : (i : ℤ) < (computeRungTimestep maxRungs dts).numRungs := by
          have : (i : ℤ) ≤ (j : ℤ) := by exact_mod_cast hij
          omega
        rw [if_pos hilt, if_pos hjlt]
        refine lowerBound_mono _ ?_
        have hpow : (2 ^ i : ℚ) ≤ (2 ^ j : ℚ) :=
          pow_le_pow_right₀ (by norm_num) hij
        exact mul_le_mul_of_nonneg_right hpow (le_of_lt hminpos)
      · rw [if_neg hjlt]
        by_cases hilt : (i : ℤ) < (computeRungTimestep maxRungs dts).numRungs
        · rw [if_pos hilt]
          exact le_trans (lowerBound_le_length _ _) (le_of_eq (sortDt_length dts))
        · rw [if_neg hilt]
  · rw [rungRanges_getD maxRungs dts (Nat.zero_le maxRungs), if_pos rfl]
  · intro r hr hrm
    have hr0 : r ≠ 0 := by
      intro h0
      rw [h0] at hr
      omega
    rw [rungRanges_getD maxRungs dts hrm, if_neg hr0, if_neg (by omega)]

/-- Witness for C2 at `maxRungs = 4`, `perGroupDt = [1, 2]`. -/
theorem timestep_invariants_witness :
    (([1, 2] : List ℚ) ≠ [] ∧ (∀ x ∈ ([1, 2] : List ℚ), 0 < x) ∧ 1 ≤ 4) ∧
    ((∀ i j : ℕ, i ≤ j → j ≤ 4 →
      (computeRungTimestep 4 [1, 2]).rungRanges.getD i 0 ≤
        (computeRungTimestep 4 [1, 2]).rungRanges.getD j 0) ∧
    (computeRungTimestep 4 [1, 2]).rungRanges.getD 0 0 = 0 ∧
    (∀ r : ℕ, (computeRungTimestep 4 [1, 2]).numRungs ≤ (r : ℤ) → r ≤ 4 →
      (computeRungTimestep 4 [1, 2]).rungRanges.getD r 0 = ([1, 2] : List ℚ).length) ∧
    1 ≤ (computeRungTimestep 4 [1, 2]).numRungs ∧
    (computeRungTimestep 4 [1, 2]).numRungs ≤ ((4 : ℕ) : ℤ)) :=
  ⟨⟨by decide, by decide, by decide⟩,
    timestep_invariants 4 [1, 2] (by decide) (by decide) (by decide)⟩

/-- C1 — Every group that `computeRungTimestep` places in rung `r` (i.e.
whose sorted position lies in `[rungRanges[r-1], rungRanges[r])` for
`r ∈ [1, numRungs]`) has a per-group timestep value of at least
`2^(r-1) * minDt`, and that value is one of the original input values:
the lower stability bound implied by its rung never exceeds its individual
safety-limited timestep. -/
theorem rung_lower_stability_bound (maxRungs : ℕ) (dts : List ℚ)
    (r i : ℕ) (hr1 : 1 ≤ r)
    (hrle : (r : ℤ) ≤ (computeRungTimestep maxRungs dts).numRungs)
    (hlo : (computeRungTimestep maxRungs dts).rungRanges.getD (r - 1) 0 ≤ i)
    (hhi : i < (computeRungTimestep maxRungs dts).rungRanges.getD r 0) :
    (2 ^ (r - 1) : ℚ) * (computeRungTimestep maxRungs dts).minDt ≤ (sortDt dts).getD i 0
      ∧ (sortDt dts).getD i 0 ∈ dts := by
  have hrmaxZ : (r : ℤ) ≤ (maxRungs : ℤ) :=
    le_trans hrle (numRungs_le_maxRungs maxRungs dts)
  have hrmax : r ≤ maxRungs := by exact_mod_cast hrmaxZ
  have hin : i < dts.length :=
    lt_of_lt_of_le hhi (rungRanges_le_numGroups maxRungs dts r)
  have hin' : i < (sortDt dts).length := by rw [sortDt_length]; exact hin
  refine ⟨?_, sortDt_getD_mem hin⟩
  rw [minDt_eq]
  rcases Nat.lt_or_ge r 2 with hr2 | hr2
  · -- rung 1: the bound is `2^0 * minDt = minDt`, the global minimum
    have hr' : r = 1 := by omega
    subst hr'
    simpa using minDtOf_le_getD hin
  · -- rung `r ≥ 2`: positions from `rungRanges[r-1]` on are at or after the
    -- lower bound of `2^(r-1) * minDt` in the sorted array
    have hprev0 : r - 1 ≠ 0 := by omega
    have hprevlt : ((r - 1 : ℕ) : ℤ) < (computeRungTimestep maxRungs dts).numRungs := by
      have : ((r - 1 : ℕ) : ℤ) < (r : ℤ) := by
        have : (1 : ℕ) ≤ r := hr1
        omega
      omega
    rw [rungRanges_getD maxRungs dts (le_trans (Nat.sub_le r 1) hrmax),
        if_neg hprev0, if_pos hprevlt] at hlo
    exact le_getD_of_lowerBound_le (sortDt_sorted dts) hlo hin'

/-- Witness for C1 at `maxRungs = 4`, `perGroupDt = [1]`, rung `r = 1`,
sorted position `i = 0`. -/
theorem rung_lower_stability_bound_witness :
    ((1 : ℕ) ≤ 1 ∧
      ((1 : ℕ) : ℤ) ≤ (computeRungTimestep 4 [1]).numRungs ∧
      (computeRungTimestep 4 [1]).rungRanges.getD (1 - 1) 0 ≤ 0 ∧
      0 < (computeRungTimestep 4 [1]).rungRanges.getD 1 0) ∧
    ((2 ^ (1 - 1) : ℚ) * (computeRungTimestep 4 [1]).minDt ≤ (sortDt [1]).getD 0 0
      ∧ (sortDt [1]).getD 0 0 ∈ ([1] : List ℚ)) := by
  have hne : ([1] : List ℚ) ≠ [] := by decide
  have hpos : ∀ x ∈ ([1] : List ℚ), 0 < x := by decide
  have hrle : ((1 : ℕ) : ℤ) ≤ (computeRungTimestep 4 [1]).numRungs :=
    one_le_numRungs hne hpos (by decide)
  have hnrm : (computeRungTimestep 4 [1]).numRungs ≤ ((4 : ℕ) : ℤ) :=
    numRungs_le_maxRungs 4 [1]
  have hs : sortDt [1] = ([1] : List ℚ) := List.mergeSort_eq_self (by decide)
  have hratio : refDtOf [1] / minDtOf [1] = 1 := by
    rw [refDtOf, minDtOf, hs]
    norm_num [refIdx]
  have hnum : (computeRungTimestep 4 [1]).numRungs = 1 := by
    rw [numRungs_eq, hratio, ilog2_one]
    decide
  have hlo : (computeRungTimestep 4 [1]).rungRanges.getD (1 - 1) 0 ≤ 0 := by
    rw [rungRanges_getD 4 [1] (by omega : 1 - 1 ≤ 4)]
    simp
  have hhi : 0 < (computeRungTimestep 4 [1]).rungRanges.getD 1 0 := by
    rw [rungRanges_getD 4 [1] (by omega : 1 ≤ 4), if_neg (by omega), if_neg (by rw [hnum]; decide)]
    decide
  exact ⟨⟨le_rfl, hrle, hlo, hhi⟩,
    rung_lower_stability_bound 4 [1] 1 0 le_rfl hrle hlo hhi⟩

/-- C3 — `computeRungTimestep` sets
`numRungs = min(⌊log2(refDt / minDt)⌋ + 1, maxRungs)`; whenever
`refDt ≤ minDt`, and in particular when all groups have the same
`perGroupDt`, `numRungs = 1` and the single rung spans all groups. -/
theorem numRungs_formula (maxRungs : ℕ) (dts : List ℚ)
    (hne : dts ≠ []) (hpos : ∀ x ∈ dts, 0 < x) (hmax : 1 ≤ maxRungs) :
    (∀ k : ℕ, (2 ^ k : ℚ) ≤ refDtOf dts / minDtOf dts →
      refDtOf dts / minDtOf dts < 2 ^ (k + 1) →
      (computeRungTimestep maxRungs dts).numRungs = min ((k : ℤ) + 1) (maxRungs : ℤ)) ∧
    (refDtOf dts ≤ minDtOf dts → (computeRungTimestep maxRungs dts).numRungs = 1) ∧
    ((∀ x ∈ dts, x = dts.getD 0 0) →
      (computeRungTimestep maxRungs dts).numRungs = 1 ∧
      (computeRungTimestep maxRungs dts).rungRanges.getD 1 0 = dts.length) := by
  have hminpos : 0 < minDtOf dts := minDtOf_pos hne hpos
  have hb : refDtOf dts ≤ minDtOf dts → (computeRungTimestep maxRungs dts).numRungs = 1 := by
    intro hle
    have heq : refDtOf dts = minDtOf dts :=
      le_antisymm hle (minDtOf_le_refDtOf hne)
    have hratio : refDtOf dts / minDtOf dts = 1 := by
      rw [heq]
      exact div_self (ne_of_gt hminpos)
    rw [numRungs_eq, hratio, ilog2_one]
    have : (1 : ℤ) ≤ (maxRungs : ℤ) := by exact_mod_cast hmax
    omega
  refine ⟨?_, hb, ?_⟩
  · intro k hk1 hk2
    rw [numRungs_eq, ilog2_eq_of_pow_le_of_lt_pow hk1 hk2]
  · intro hall
    have hrefc : refDtOf dts = dts.getD 0 0 := hall _ (refDtOf_mem hne)
    have hminc : minDtOf dts = dts.getD 0 0 := hall _ (minDtOf_mem hne)
    have hnum : (computeRungTimestep maxRungs dts).numRungs = 1 :=
      hb (le_of_eq (hrefc.trans hminc.symm))
    refine ⟨hnum, ?_⟩
    rw [rungRanges_getD maxRungs dts hmax, if_neg one_ne_zero,
        if_neg (by rw [hnum]; decide)]

/-- Witness for C3 at `maxRungs = 4`, `perGroupDt = [3, 3]` (all groups
equally fast). -/
theorem numRungs_formula_witness :
    (([3, 3] : List ℚ) ≠ [] ∧ (∀ x ∈ ([3, 3] : List ℚ), 0 < x) ∧ (1 : ℕ) ≤ 4) ∧
    ((∀ k : ℕ, (2 ^ k : ℚ) ≤ refDtOf [3, 3] / minDtOf [3, 3] →
      refDtOf [3, 3] / minDtOf [3, 3] < 2 ^ (k + 1) →
      (computeRungTimestep 4 [3, 3]).numRungs = min ((k : ℤ) + 1) ((4 : ℕ) : ℤ)) ∧
    (refDtOf [3, 3] ≤ minDtOf [3, 3] → (computeRungTimestep 4 [3, 3]).numRungs = 1) ∧
    ((∀ x ∈ ([3, 3] : List ℚ), x = ([3, 3] : List ℚ).getD 0 0) →
      (computeRungTimestep 4 [3, 3]).numRungs = 1 ∧
      (computeRungTimestep 4 [3, 3]).rungRanges.getD 1 0 = ([3, 3] : List ℚ).length)) :=
  ⟨⟨by decide, by decide, by decide⟩,
    numRungs_formula 4 [3, 3] (by decide) (by decide) (by decide)⟩

/-- C8 — Running `computeRungTimestep` on the output state of a first run
(the `perGroupDt` array is left sorted in place, otherwise unchanged)
produces a `Timestep` identical in every field to the first run's
result. -/
theorem computeRungTimestep_idempotent (maxRungs : ℕ) (dts : List ℚ) :
    computeRungTimestep maxRungs (sortDt dts) = computeRungTimestep maxRungs dts := by
  simp only [computeRungTimestep, minDtOf, refDtOf, sortDt_idem, sortDt_length]

/-! ### Rung boundary search semantics (claim C4)

The spec words the boundary search as "the first index whose value exceeds
(is strictly greater than) `2^r * minDt`"; the code calls
`cstone::lowerBoundGpu`, i.e. `std::lower_bound`, which returns the first
index whose value is greater than **or equal to** the searched value.  The
two differ exactly when some group timestep equals `2^r * minDt`. -/

/-- The boundary rule as the spec words it: the first index whose sorted
value strictly exceeds `v` (`std::upper_bound` semantics).  Defined only to
be compared against the code's `lowerBound`. -/
def firstExceeding (xs : List ℚ) (v : ℚ) : ℕ := xs.findIdx (fun x => decide (v < x))

theorem sortDt_1225 : sortDt [1, 2, 2, 5] = ([1, 2, 2, 5] : List ℚ) :=
  List.mergeSort_eq_self (by decide)

theorem numRungs_1225 : (computeRungTimestep 4 [1, 2, 2, 5]).numRungs = 2 := by
  have hratio : refDtOf [1, 2, 2, 5] / minDtOf [1, 2, 2, 5] = 2 := by
    rw [refDtOf, minDtOf, sortDt_1225]
    norm_num [refIdx]
  have hlog : ilog2 (2 : ℚ) = 1 :=
    ilog2_eq_of_pow_le_of_lt_pow (k := 1) (by norm_num) (by norm_num)
  rw [numRungs_eq, hratio, hlog]
  decide

theorem minDt_1225 : (computeRungTimestep 4 [1, 2, 2, 5]).minDt = 1 := by
  rw [minDt_eq, minDtOf, sortDt_1225]
  decide

/-- C4 counterexample — at `perGroupDt = [1, 2, 2, 5]` (`maxRungs = 4`) the
code computes `minDt = 1`, `numRungs = 2` and `rungRanges[1] = 1`, the
`std::lower_bound` index of `2^1 * minDt = 2`; the first index whose value
strictly exceeds `2` is `3`, so the claim's strict-inequality reading of
the boundary search does not match the code. -/
theorem rungRanges_strictly_greater_counterexample :
    1 < (computeRungTimestep 4 [1, 2, 2, 5]).numRungs ∧
    (computeRungTimestep 4 [1, 2, 2, 5]).rungRanges.getD 1 0 = 1 ∧
    firstExceeding (sortDt [1, 2, 2, 5])
      ((2 ^ 1 : ℚ) * (computeRungTimestep 4 [1, 2, 2, 5]).minDt) = 3 ∧
    (computeRungTimestep 4 [1, 2, 2, 5]).rungRanges.getD 1 0 ≠
      firstExceeding (sortDt [1, 2, 2, 5])
        ((2 ^ 1 : ℚ) * (computeRungTimestep 4 [1, 2, 2, 5]).minDt) := by
  have hnum := numRungs_1225
  have hr1 : (computeRungTimestep 4 [1, 2, 2, 5]).rungRanges.getD 1 0 = 1 := by
    rw [rungRanges_getD 4 [1, 2, 2, 5] (by omega : 1 ≤ 4), if_neg one_ne_zero,
        if_pos (by rw [hnum]; decide), sortDt_1225]
    have hmin : minDtOf [1, 2, 2, 5] = 1 := by rw [minDtOf, sortDt_1225]; decide
    rw [hmin]
    norm_num [lowerBound, List.findIdx_cons]
  have hfe : firstExceeding (sortDt [1, 2, 2, 5])
      ((2 ^ 1 : ℚ) * (computeRungTimestep 4 [1, 2, 2, 5]).minDt) = 3 := by
    rw [sortDt_1225, minDt_1225]
    norm_num [firstExceeding, List.findIdx_cons]
  refine ⟨by rw [hnum]; decide, hr1, hfe, ?_⟩
  rw [hr1, hfe]
  decide

/-- C4 (amended) — For each rung `r ∈ [1, numRungs)`, `rungRanges[r]` is
the `std::lower_bound` index of `2^r * minDt` in the ascending-sorted
`perGroupDt` array: entries before it are strictly below `2^r * minDt`,
entries from it on are greater than or equal to `2^r * minDt` (not
strictly greater, as the spec words it).  `rungRanges[0] = 0` and
`rungRanges[numRungs]` is the total group count. -/
theorem rungRanges_lowerBound_characterization (maxRungs : ℕ) (dts : List ℚ)
    (r : ℕ) (hr1 : 1 ≤ r)
    (hrlt : (r : ℤ) < (computeRungTimestep maxRungs dts).numRungs)
    (hrm : r ≤ maxRungs) :
    (∀ i : ℕ, i < (computeRungTimestep maxRungs dts).rungRanges.getD r 0 →
      i < (sortDt dts).length →
      (sortDt dts).getD i 0 < (2 ^ r : ℚ) * (computeRungTimestep maxRungs dts).minDt) ∧
    (∀ i : ℕ, (computeRungTimestep maxRungs dts).rungRanges.getD r 0 ≤ i →
      i < (sortDt dts).length →
      (2 ^ r : ℚ) * (computeRungTimestep maxRungs dts).minDt ≤ (sortDt dts).getD i 0) ∧
    (computeRungTimestep maxRungs dts).rungRanges.getD 0 0 = 0 ∧
    (computeRungTimestep maxRungs dts).rungRanges.getD
      (computeRungTimestep maxRungs dts).numRungs.toNat 0 = dts.length := by
  have hr0 : r ≠ 0 := by omega
  have hgetr : (computeRungTimestep maxRungs dts).rungRanges.getD r 0 =
      lowerBound (sortDt dts) ((2 ^ r : ℚ) * minDtOf dts) := by
    rw [rungRanges_getD maxRungs dts hrm, if_neg hr0, if_pos hrlt]
  refine ⟨?_, ?_, ?_, ?_⟩
  · intro i hilt hin
    rw [hgetr] at hilt
    rw [minDt_eq]
    exact getD_lt_of_lt_lowerBound hilt hin
  · intro i hile hin
    rw [hgetr] at hile
    rw [minDt_eq]
    exact le_getD_of_lowerBound_le (sortDt_sorted dts) hile hin
  · rw [rungRanges_getD maxRungs dts (Nat.zero_le maxRungs), if_pos rfl]
  · have hnr : (computeRungTimestep maxRungs dts).numRungs ≤ (maxRungs : ℤ) :=
      numRungs_le_maxRungs maxRungs dts
    have hpos : (0 : ℤ) < (computeRungTimestep maxRungs dts).numRungs := by omega
    have htn : (computeRungTimestep maxRungs dts).numRungs.toNat ≤ maxRungs := by omega
    rw [rungRanges_getD maxRungs dts htn, if_neg (by omega), if_neg (by omega)]

/-- Witness for the amended C4 at `maxRungs = 4`, `perGroupDt = [1, 2, 2, 5]`,
rung `r = 1`. -/
theorem rungRanges_lowerBound_characterization_witness :
    ((1 : ℕ) ≤ 1 ∧ ((1 : ℕ) : ℤ) < (computeRungTimestep 4 [1, 2, 2, 5]).numRungs ∧
      (1 : ℕ) ≤ 4) ∧
    ((∀ i : ℕ, i < (computeRungTimestep 4 [1, 2, 2, 5]).rungRanges.getD 1 0 →
      i < (sortDt [1, 2, 2, 5]).length →
      (sortDt [1, 2, 2, 5]).getD i 0 <
        (2 ^ 1 : ℚ) * (computeRungTimestep 4 [1, 2, 2, 5]).minDt) ∧
    (∀ i : ℕ, (computeRungTimestep 4 [1, 2, 2, 5]).rungRanges.getD 1 0 ≤ i →
      i < (sortDt [1, 2, 2, 5]).length →
      (2 ^ 1 : ℚ) * (computeRungTimestep 4 [1, 2, 2, 5]).minDt ≤
        (sortDt [1, 2, 2, 5]).getD i 0) ∧
    (computeRungTimestep 4 [1, 2, 2, 5]).rungRanges.getD 0 0 = 0 ∧
    (computeRungTimestep 4 [1, 2, 2, 5]).rungRanges.getD
      (computeRungTimestep 4 [1, 2, 2, 5]).numRungs.toNat 0 =
        ([1, 2, 2, 5] : List ℚ).length) := by
  have hrlt : ((1 : ℕ) : ℤ) < (computeRungTimestep 4 [1, 2, 2, 5]).numRungs := by
    rw [numRungs_1225]; decide
  exact ⟨⟨le_rfl, hrlt, by decide⟩,
    rungRanges_lowerBound_characterization 4 [1, 2, 2, 5] 1 le_rfl hrlt (by decide)⟩

/-! ### Multi-worker reduction of the timestep scalars (claim C5)

`computeRungTimestep` contributes two scalars per rank to an
`MPI_Allreduce(..., MPI_MIN, ...)`: `groupDt[0]` and
`groupDt[LocalIndex(0.4 * numGroups)]` (`timestepRangeGpu`).  Both device
reads are unconditional: a rank holding zero groups still reads
`groupDt[0]`, which is then not the timestep of any group but whatever
stale value the buffer holds, and no positive-infinity sentinel is
substituted. -/

/-- One MPI rank's input to `computeRungTimestep`: the device `groupDt`
buffer (its storage may extend past the live range with stale values) and
the number of groups the rank actually holds. -/
structure TsWorker where
  buf : List ℚ
  numGroups : ℕ
deriving DecidableEq

/-- Effect of `sortGroupDt` on the rank's buffer: the live prefix of
`numGroups` entries is sorted ascending in place, storage past it is left
untouched. -/
def sortedBuf (w : TsWorker) : List ℚ :=
  sortDt (w.buf.take w.numGroups) ++ w.buf.drop w.numGroups

/-- First scalar read by `timestepRangeGpu`: `memcpyD2H(groupDt, 1, ...)`,
i.e. `groupDt[0]` — read unconditionally, also when `numGroups = 0`. -/
def localMinDt (w : TsWorker) : ℚ := (sortedBuf w).getD 0 0

/-- Second scalar read by `timestepRangeGpu`:
`groupDt[LocalIndex(0.4 * numGroups)]`. -/
def localRefDt (w : TsWorker) : ℚ := (sortedBuf w).getD (refIdx w.numGroups) 0

/-- `mpiAllreduce(..., MPI_MIN)` over all ranks' contributions. -/
def allreduceMin : List ℚ → ℚ
  | [] => 0
  | v :: vs => vs.foldl min v

/-- `minDtGlobal[0]`: the min-reduction of every rank's `groupDt[0]`. -/
def globalMinDt (ws : List TsWorker) : ℚ := allreduceMin (ws.map localMinDt)

/-- The per-group timesteps actually held by the ranks (the union of the
live buffer prefixes). -/
def unionGroupDt (ws : List TsWorker) : List ℚ :=
  (ws.map (fun w => w.buf.take w.numGroups)).flatten

/-- C5 — evaluation of the code at the failing input.  Rank 0 holds zero
groups while its `groupDt` buffer holds the stale value `5`; rank 1 holds
one group with timestep `10`.  The claim (and the spec) require the empty
rank to contribute a positive-infinity sentinel so that the reduced
`minDt` equals the true minimum `10` over the union of all groups; the
code instead reduces the stale `groupDt[0]` read and produces `5`. -/
theorem zero_group_worker_corrupts_min :
    globalMinDt [⟨[5], 0⟩, ⟨[10], 1⟩] = 5 ∧
    unionGroupDt [⟨[5], 0⟩, ⟨[10], 1⟩] = [10] ∧
    allreduceMin (unionGroupDt [⟨[5], 0⟩, ⟨[10], 1⟩]) = 10 ∧
    globalMinDt [⟨[5], 0⟩, ⟨[10], 1⟩] ≠
      allreduceMin (unionGroupDt [⟨[5], 0⟩, ⟨[10], 1⟩]) := by
  have h0 : sortedBuf ⟨[5], 0⟩ = ([5] : List ℚ) := by
    have hnil : sortDt ([] : List ℚ) = [] := List.mergeSort_eq_self (by decide)
    simp [sortedBuf, hnil]
  have h1 : sortedBuf ⟨[10], 1⟩ = ([10] : List ℚ) := by
    have hone : sortDt ([10] : List ℚ) = [10] := List.mergeSort_eq_self (by decide)
    simp [sortedBuf, hone]
  have hg : globalMinDt [⟨[5], 0⟩, ⟨[10], 1⟩] = 5 := by
    simp only [globalMinDt, List.map, localMinDt, h0, h1]
    decide
  refine ⟨hg, by decide, by decide, ?_⟩
  rw [hg]
  decide

/-! ### Global reductions in `NbodyProp::step` (claim C6)

After traversal, the propagator issues `MPI_Reduce(&d.egrav, &globalEnergy,
1, ..., MPI_SUM, rootRank, ...)` followed by `d.egrav = globalEnergy`, and
`MPI_Reduce(&stats[1], &maxP2Pglobal, 1, ..., MPI_MAX, rootRank, ...)`. -/

/-- The root rank of the reductions (`rootRank = 0` in `NbodyProp::step`). -/
def rootRank : ℕ := 0

/-- `MPI_Reduce(..., MPI_SUM, ...)`: the sum of every rank's contribution,
delivered at the root. -/
def reduceSum (vs : List ℚ) : ℚ := vs.foldl (· + ·) 0

/-- `MPI_Reduce(..., MPI_MAX, ...)` over unsigned per-rank counters,
delivered at the root. -/
def reduceMax (vs : List ℕ) : ℕ := vs.foldl max 0

/-- `d.egrav` stored on rank `rank` after the energy reduction: the root
receives the sum of all partial potential energies; on every other rank
`MPI_Reduce` leaves the receive variable at its initialiser `0`, which is
then assigned to `d.egrav`. -/
def egravAfterStep (partials : List ℚ) (rank : ℕ) : ℚ :=
  if rank = rootRank then reduceSum partials else 0

/-- `maxP2Pglobal` received at the root from the per-rank `stats[1]`
particle-particle interaction counters. -/
def maxP2PGlobal (stats : List ℕ) : ℕ := reduceMax stats

theorem reduceSum_eq_sum (vs : List ℚ) : reduceSum vs = vs.sum :=
  (List.sum_eq_foldl).symm

theorem le_foldl_max (vs : List ℕ) : ∀ a : ℕ, a ≤ vs.foldl max a := by
  induction vs with
  | nil => intro a; exact le_rfl
  | cons v vs ih =>
    intro a
    exact le_trans (Nat.le_max_left a v) (ih (max a v))

theorem le_reduceMax_of_mem {vs : List ℕ} {c : ℕ} (hc : c ∈ vs) :
    ∀ a : ℕ, c ≤ vs.foldl max a := by
  induction vs with
  | nil => cases hc
  | cons v vs ih =>
    intro a
    rcases List.mem_cons.mp hc with rfl | hmem
    · exact le_trans (Nat.le_max_right a c) (le_foldl_max vs (max a c))
    · exact ih hmem (max a v)

theorem foldl_max_eq_or_mem (vs : List ℕ) : ∀ a : ℕ,
    vs.foldl max a = a ∨ vs.foldl max a ∈ vs := by
  induction vs with
  | nil => intro a; exact Or.inl rfl
  | cons v vs ih =>
    intro a
    rw [List.foldl_cons]
    rcases ih (max a v) with heq | hmem
    · rw [heq]
      rcases Nat.le_total a v with h | h
      · rw [Nat.max_eq_right h]
        exact Or.inr (List.mem_cons_self v vs)
      · rw [Nat.max_eq_left h]
        exact Or.inl rfl
    · exact Or.inr (List.mem_cons_of_mem v hmem)

theorem reduceMax_mem {vs : List ℕ} (hne : vs ≠ []) : reduceMax vs ∈ vs := by
  rcases foldl_max_eq_or_mem vs 0 with heq | hmem
  · cases vs with
    | nil => exact absurd rfl hne
    | cons v vs =>
      have hv : v ≤ reduceMax (v :: vs) :=
        le_reduceMax_of_mem (List.mem_cons_self v vs) 0
      have h0 : reduceMax (v :: vs) = 0 := heq
      rw [h0] at hv
      have hv0 : v = 0 := Nat.le_zero.mp hv
      show (v :: vs).foldl max 0 ∈ v :: vs
      rw [heq, ← hv0]
      exact List.mem_cons_self v vs
  · exact hmem

/-- C6 — After the global-reduction phase of one `NbodyProp::step`, the
total gravitational potential energy stored at the root rank equals the sum
over all workers of their partial potential energies; the reduction is
commutative and order-independent (any permutation of the worker
contributions yields the same stored total); and the reduced
particle-particle interaction statistic is the maximum of the per-worker
counts — in particular, for counts `{10, 25, 7}` it is `25`. -/
theorem global_reduction_correct (partials altOrder : List ℚ)
    (hperm : altOrder.Perm partials) (stats : List ℕ) (hs : stats ≠ []) :
    egravAfterStep partials rootRank = partials.sum ∧
    egravAfterStep altOrder rootRank = partials.sum ∧
    (∀ c ∈ stats, c ≤ maxP2PGlobal stats) ∧
    maxP2PGlobal stats ∈ stats ∧
    maxP2PGlobal [10, 25, 7] = 25 := by
  refine ⟨?_, ?_, ?_, reduceMax_mem hs, by decide⟩
  · rw [egravAfterStep, if_pos rfl, reduceSum_eq_sum]
  · rw [egravAfterStep, if_pos rfl, reduceSum_eq_sum]
    exact hperm.sum_eq
  · intro c hc
    exact le_reduceMax_of_mem hc 0

/-- Witness for C6 at `partials = [3, 4]`, `altOrder = [4, 3]`,
`stats = [10, 25, 7]`. -/
theorem global_reduction_correct_witness :
    (([4, 3] : List ℚ).Perm [3, 4] ∧ ([10, 25, 7] : List ℕ) ≠ []) ∧
    (egravAfterStep [3, 4] rootRank = ([3, 4] : List ℚ).sum ∧
    egravAfterStep [4, 3] rootRank = ([3, 4] : List ℚ).sum ∧
    (∀ c ∈ ([10, 25, 7] : List ℕ), c ≤ maxP2PGlobal [10, 25, 7]) ∧
    maxP2PGlobal [10, 25, 7] ∈ ([10, 25, 7] : List ℕ) ∧
    maxP2PGlobal [10, 25, 7] = 25) :=
  ⟨⟨by decide, by decide⟩,
    global_reduction_correct [3, 4] [4, 3] (by decide) [10, 25, 7] (by decide)⟩

/-! ### Resize-and-pad phase of `NbodyProp::step` (claim C7)

After domain sync the propagator resizes the particle arrays to the
halo-inclusive length and replicates the mass of the first owned particle
into the left and right halo padding:

    d.resize(domain.nParticlesWithHalos());
    fill(get<"m">(d), 0, first, d.m[first]);
    fill(get<"m">(d), last, domain.nParticlesWithHalos(), d.m[first]);
-/

/-- Element-wise transformation of the entries at indices `[lo, hi)` of a
list, counting positions from `i`. -/
def applyRangeFrom (f : ℕ → ℚ → ℚ) (lo hi : ℕ) : ℕ → List ℚ → List ℚ
  | _, [] => []
  | i, a :: as => (if lo ≤ i ∧ i < hi then f i a else a) :: applyRangeFrom f lo hi (i + 1) as

/-- Element-wise transformation of the entries at indices `[lo, hi)`. -/
def applyRange (f : ℕ → ℚ → ℚ) (lo hi : ℕ) (xs : List ℚ) : List ℚ :=
  applyRangeFrom f lo hi 0 xs

/-- `fill(array, lo, hi, v)`: store `v` at every index in `[lo, hi)`. -/
def fillRange (xs : List ℚ) (lo hi : ℕ) (v : ℚ) : List ℚ :=
  applyRange (fun _ _ => v) lo hi xs

/-- `std::vector::resize(n)`: keep the first `min n length` values,
value-initialise (zero) any newly created slot. -/
def resizeTo (xs : List ℚ) (n : ℕ) : List ℚ :=
  xs.take n ++ List.replicate (n - xs.length) 0

/-- Lines 122–128 of `NbodyProp::step`: resize the mass array to the
halo-inclusive length `total`, then fill `[0, first)` and `[last, total)`
with the value at index `first` (each `fill` reads `d.m[first]` at call
time). -/
def resizePadMass (m : List ℚ) (first last total : ℕ) : List ℚ :=
  let resized := resizeTo m total
  let afterLeft := fillRange resized 0 first (resized.getD first 0)
  fillRange afterLeft last total (afterLeft.getD first 0)

theorem applyRangeFrom_length (f : ℕ → ℚ → ℚ) (lo hi : ℕ) (xs : List ℚ) :
    ∀ i : ℕ, (applyRangeFrom f lo hi i xs).length = xs.length := by
  induction xs with
  | nil => intro i; rfl
  | cons a as ih =>
    intro i
    simp [applyRangeFrom, ih (i + 1)]

theorem applyRange_length (f : ℕ → ℚ → ℚ) (lo hi : ℕ) (xs : List ℚ) :
    (applyRange f lo hi xs).length = xs.length :=
  applyRangeFrom_length f lo hi xs 0

theorem applyRangeFrom_getD (f : ℕ → ℚ → ℚ) (lo hi : ℕ) (xs : List ℚ) :
    ∀ i j : ℕ, (applyRangeFrom f lo hi i xs).getD j 0 =
      if lo ≤ i + j ∧ i + j < hi ∧ j < xs.length then f (i + j) (xs.getD j 0)
      else xs.getD j 0 := by
  induction xs with
  | nil =>
    intro i j
    simp [applyRangeFrom]
  | cons a as ih =>
    intro i j
    cases j with
    | zero =>
      simp only [applyRangeFrom, List.getD_cons_zero, Nat.add_zero, List.length_cons]
      by_cases h : lo ≤ i ∧ i < hi
      · rw [if_pos h, if_pos ⟨h.1, h.2, Nat.succ_pos _⟩]
      · rw [if_neg h, if_neg (fun hc => h ⟨hc.1, hc.2.1⟩)]
    | succ j =>
      simp only [applyRangeFrom, List.getD_cons_succ, List.length_cons]
      rw [ih (i + 1) j]
      have h1 : i + 1 + j = i + (j + 1) := by omega
      refine if_congr ?_ (by rw [h1]) rfl
      rw [h1]
      constructor
      · rintro ⟨hx, hy, hz⟩; exact ⟨hx, hy, by omega⟩
      · rintro ⟨hx, hy, hz⟩; exact ⟨hx, hy, by omega⟩

theorem applyRange_getD (f : ℕ → ℚ → ℚ) (lo hi : ℕ) (xs : List ℚ) (j : ℕ) :
    (applyRange f lo hi xs).getD j 0 =
      if lo ≤ j ∧ j < hi ∧ j < xs.length then f j (xs.getD j 0) else xs.getD j 0 := by
  rw [applyRange, applyRangeFrom_getD f lo hi xs 0 j]
  simp

theorem resizeTo_length (xs : List ℚ) (n : ℕ) : (resizeTo xs n).length = n := by
  rw [resizeTo, List.length_append, List.length_take, List.length_replicate]
  omega

theorem resizeTo_getD (xs : List ℚ) {n i : ℕ} (hin : i < n) (hix : i < xs.length) :
    (resizeTo xs n).getD i 0 = xs.getD i 0 := by
  have hlt : i < (xs.take n).length := by
    rw [List.length_take]; omega
  rw [resizeTo]
  have happ : i < (xs.take n ++ List.replicate (n - xs.length) (0 : ℚ)).length := by
    simp only [List.length_append, List.length_take, List.length_replicate]
    omega
  rw [List.getD_eq_getElem _ _ happ, List.getElem_append_left hlt, List.getElem_take,
      List.getD_eq_getElem _ _ hix]

/-- C7 — After the resize-and-pad phase with owned range `[first, last)`
inside an array resized to the halo-inclusive length `total`, every mass
entry at indices `[0, first)` and `[last, total)` equals the mass value
originally stored at index `first`. -/
theorem resizePad_boundary_fill (m : List ℚ) (first last total : ℕ)
    (h1 : first < last) (h2 : last ≤ total) (h3 : first < m.length)
    (i : ℕ) (hi : i < first ∨ (last ≤ i ∧ i < total)) :
    (resizePadMass m first last total).getD i 0 = m.getD first 0 := by
  have hft : first < total := lt_of_lt_of_le h1 h2
  have hresfirst : (resizeTo m total).getD first 0 = m.getD first 0 :=
    resizeTo_getD m hft h3
  have hreslen : (resizeTo m total).length = total := resizeTo_length m total
  have hleftlen :
      (fillRange (resizeTo m total) 0 first ((resizeTo m total).getD first 0)).length =
        total := by
    rw [fillRange, applyRange_length, hreslen]
  have hleftfirst :
      (fillRange (resizeTo m total) 0 first ((resizeTo m total).getD first 0)).getD first 0 =
        m.getD first 0 := by
    rw [fillRange, applyRange_getD, if_neg (fun hc => lt_irrefl first hc.2.1), hresfirst]
  show (fillRange _ last total _).getD i 0 = m.getD first 0
  rcases hi with hlt | ⟨hge, hlt⟩
  · -- left padding: the second fill leaves `[0, last)` alone, the first
    -- fill wrote `m[first]`
    rw [fillRange, applyRange_getD, if_neg (fun hc => absurd hc.1 (by omega))]
    rw [fillRange, applyRange_getD,
      if_pos ⟨Nat.zero_le i, by omega, by rw [hreslen]; omega⟩]
    exact hresfirst
  · -- right padding: the second fill writes the value it read at `first`
    rw [fillRange, applyRange_getD, if_pos ⟨hge, hlt, by rw [hleftlen]; omega⟩, hleftfirst]

/-- Witness for C7 at `m = replicate 20 3`, `first = 5`, `last = 20`,
`total = 25`, checked at a left-padding index `3` and a right-padding
index `22`. -/
theorem resizePad_boundary_fill_witness :
    ((5 : ℕ) < 20 ∧ (20 : ℕ) ≤ 25 ∧ (5 : ℕ) < (List.replicate 20 (3 : ℚ)).length ∧
      ((3 : ℕ) < 5 ∨ ((20 : ℕ) ≤ 3 ∧ (3 : ℕ) < 25)) ∧
      ((22 : ℕ) < 5 ∨ ((20 : ℕ) ≤ 22 ∧ (22 : ℕ) < 25))) ∧
    (resizePadMass (List.replicate 20 (3 : ℚ)) 5 20 25).getD 3 0 =
      (List.replicate 20 (3 : ℚ)).getD 5 0 ∧
    (resizePadMass (List.replicate 20 (3 : ℚ)) 5 20 25).getD 22 0 =
      (List.replicate 20 (3 : ℚ)).getD 5 0 :=
  ⟨⟨by decide, by decide, by decide, by decide, by decide⟩,
    resizePad_boundary_fill (List.replicate 20 3) 5 20 25
      (by decide) (by decide) (by decide) 3 (by decide),
    resizePad_boundary_fill (List.replicate 20 3) 5 20 25
      (by decide) (by decide) (by decide) 22 (by decide)⟩

/-! ### `MomentumSquarePatch::compute` (claim C9)

The kernel accumulates, per particle `i`, pressure-gradient, viscosity and
repulsive-force contributions over the neighbor list and writes
`grad_P_{x,y,z}[i] = momentum_{x,y,z} * m[i]`.  The transcendental helpers
it calls (`exp`, `sqrt`, `pow`, `artificial_viscosity`,
`wharmonic_derivative`) live outside this source set and are abstracted as
opaque function parameters; the verified property (independence of the
`iteration` input) holds for every choice of them. -/

/-- The helper functions `MomentumSquarePatch::compute` consumes from
`TaskLoop.hpp` / kernel headers, abstracted. -/
structure MomentumKernels where
  expQ : ℚ → ℚ
  sqrtQ : ℚ → ℚ
  powQ : ℚ → ℚ → ℚ
  viscQ : ℚ → ℚ → ℚ → ℚ → ℚ → ℚ → ℚ → ℚ → ℚ
  wderivQ : ℚ → ℚ → ℚ → ℚ

/-- The `MomentumSquarePatch::Params` configuration block. -/
structure MomentumParams where
  K : ℚ
  delta_x_i : ℚ
  A_i : ℚ
  ep1 : ℚ
  ep2 : ℚ
  mre : ℚ
  init_timesteps : ℤ

/-- The per-particle arrays and neighbor lists read by the kernel. -/
structure PatchState where
  x : ℕ → ℚ
  y : ℕ → ℚ
  z : ℕ → ℚ
  h : ℕ → ℚ
  vx : ℕ → ℚ
  vy : ℕ → ℚ
  vz : ℕ → ℚ
  ro : ℕ → ℚ
  p : ℕ → ℚ
  c : ℕ → ℚ
  m : ℕ → ℚ
  neighbors : ℕ → List ℕ

namespace MomentumSquarePatch

/-- The body of `MomentumSquarePatch::compute(i)` (lines 32–142 of the
source): returns the triple written to
`(grad_P_x[i], grad_P_y[i], grad_P_z[i])`.  `gradh_i = gradh_j = 1` are the
class constants.  Note the guard that zeroes `force_i_j_r` during the first
`init_timesteps` iterations sits *after* the last read of `force_i_j_r`
(the repulsive force is already computed), which is what claim C9 is
about. -/
def compute (ker : MomentumKernels) (par : MomentumParams) (s : PatchState)
    (iteration : ℤ) (i : ℕ) : ℚ × ℚ × ℚ :=
  let gradh_i : ℚ := 1
  let gradh_j : ℚ := 1
  let K := par.K
  let ro_i := s.ro i
  let p_i := s.p i
  let x_i := s.x i
  let y_i := s.y i
  let z_i := s.z i
  let vx_i := s.vx i
  let vy_i := s.vy i
  let vz_i := s.vz i
  let h_i := s.h i
  let delta_x_i := par.delta_x_i
  let A_i := par.A_i
  let ep1 := par.ep1
  let ep2 := par.ep2
  let mre := par.mre
  let init_timesteps := par.init_timesteps
  let A_i := if p_i < 0 then (1 : ℚ) else A_i
  let acc := (s.neighbors i).foldl
    (fun (momentum : ℚ × ℚ × ℚ) (nid : ℕ) =>
      if nid = i then momentum else
      let ro_j := s.ro nid
      let p_j := s.p nid
      let x_j := s.x nid
      let y_j := s.y nid
      let z_j := s.z nid
      let h_j := s.h nid
      let m_j := s.m nid
      let r_ijx := x_i - x_j
      let r_ijy := y_i - y_j
      let r_ijz := z_i - z_j
      let v_ijx := vx_i - s.vx nid
      let v_ijy := vy_i - s.vy nid
      let v_ijz := vz_i - s.vz nid
      let rv := r_ijx * v_ijx + r_ijy * v_ijy + r_ijz * v_ijz
      let r_square := r_ijx * r_ijx + r_ijy * r_ijy + r_ijz * r_ijz
      let viscosity_ij := ker.viscQ ro_i ro_j (s.h i) (s.h nid) (s.c i) (s.c nid) rv r_square
      let r_ij := ker.sqrtQ r_square
      let v_i := r_ij / h_i
      let v_j := r_ij / h_j
      let derivative_kernel_i := ker.wderivQ v_i h_i K
      let derivative_kernel_j := ker.wderivQ v_j h_j K
      let grad_v_kernel_x_i := r_ijx * derivative_kernel_i
      let grad_v_kernel_x_j := r_ijx * derivative_kernel_j
      let grad_v_kernel_y_i := r_ijy * derivative_kernel_i
      let grad_v_kernel_y_j := r_ijy * derivative_kernel_j
      let grad_v_kernel_z_i := r_ijz * derivative_kernel_i
      let grad_v_kernel_z_j := r_ijz * derivative_kernel_j
      let grad_v_kernel_x_i_j := (grad_v_kernel_x_i + grad_v_kernel_x_j) / 2
      let grad_v_kernel_y_i_j := (grad_v_kernel_y_i + grad_v_kernel_y_j) / 2
      let grad_v_kernel_z_i_j := (grad_v_kernel_z_i + grad_v_kernel_z_j) / 2
      let force_i_j_r := ker.expQ (-(v_i * v_i)) * ker.expQ (delta_x_i / (h_i * h_i))
      let A_j := if p_j < 0 then (1 : ℚ) else 0
      let delta_pos_i_j := if 0 < p_i ∧ 0 < p_j then (1 : ℚ) else 0
      let R_i_j := ep1 * (A_i * |p_i| + A_j * |p_j|) + ep2 * delta_pos_i_j * (|p_i| + |p_j|)
      let r_force_i_j := R_i_j * ker.powQ force_i_j_r mre
      let partial_repulsive_force := (r_force_i_j / (ro_i * ro_j)) * m_j
      let repulsive_force_x := partial_repulsive_force * grad_v_kernel_x_i_j
      let repulsive_force_y := partial_repulsive_force * grad_v_kernel_y_i_j
      let repulsive_force_z := partial_repulsive_force * grad_v_kernel_z_i_j
      -- the source zeroes `force_i_j_r` here when `iteration < init_timesteps`;
      -- the variable is never read again afterwards
      let force_i_j_r := if iteration < init_timesteps then (0 : ℚ) else force_i_j_r
      (momentum.1 + (p_i / (gradh_i * ro_i * ro_i) * grad_v_kernel_x_i)
          + (p_j / (gradh_j * ro_j * ro_j) * grad_v_kernel_x_j)
          + viscosity_ij * grad_v_kernel_x_i_j + repulsive_force_x,
        momentum.2.1 + (p_i / (gradh_i * ro_i * ro_i) * grad_v_kernel_y_i)
          + (p_j / (gradh_j * ro_j * ro_j) * grad_v_kernel_y_j)
          + viscosity_ij * grad_v_kernel_y_i_j + repulsive_force_y,
        momentum.2.2 + (p_i / (gradh_i * ro_i * ro_i) * grad_v_kernel_z_i)
          + (p_j / (gradh_j * ro_j * ro_j) * grad_v_kernel_z_j)
          + viscosity_ij * grad_v_kernel_z_i_j + repulsive_force_z))
    ((0 : ℚ), (0 : ℚ), (0 : ℚ))
  (acc.1 * s.m i, acc.2.1 * s.m i, acc.2.2 * s.m i)

end MomentumSquarePatch

/-- C9 — For every particle index `i` and every pair of values of the
`iteration` parameter, `MomentumSquarePatch::compute(i)` writes identical
values to `grad_P_x[i]`, `grad_P_y[i]` and `grad_P_z[i]`: the guard that
zeroes `force_i_j_r` when `iteration < init_timesteps` executes after the
last use of `force_i_j_r`, so the output is independent of the `iteration`
input — for every choice of the opaque helper kernels. -/
theorem compute_independent_of_iteration (ker : MomentumKernels)
    (par : MomentumParams) (s : PatchState) (i : ℕ) (it1 it2 : ℤ) :
    MomentumSquarePatch.compute ker par s it1 i =
      MomentumSquarePatch.compute ker par s it2 i := rfl

/-! ### `computeDensity` (claim C10, `sph/hydro_std/density.hpp`)

The host path of `computeDensity` swaps the `xm` and `rho` buffers, calls
`computeXMass` (which writes per-particle x-mass values into the `xm`
field, i.e. into the old `rho` storage), swaps back, and finally converts
in place: `rho[i] = m[i] / rho[i]` for `i ∈ [startIndex, endIndex)`. -/

/-- Particle data as seen by `computeDensity`: the `xm` and `rho` buffers,
the mass array, and an opaque component `fields` standing for the conserved
per-particle fields (`x`, `y`, `z`, `h`, …) plus the box that
`computeXMass` reads — none of which `computeDensity` touches. -/
structure DensityData (σ : Type) where
  fields : σ
  m : ℕ → ℚ
  xm : List ℚ
  rho : List ℚ

/-- Modelled from the spec: `computeXMass` (`sph/hydro_ve/xmass.hpp`, not
part of this source set) is one of the raw pairwise SPH kernels the spec
treats as external collaborators, "consumed as pure per-particle-pair
functions".  It computes, for each `i ∈ [startIndex, endIndex)`, a
per-particle x-mass value from the conserved fields (not from `xm` or
`rho`) and stores it into `d.xm[i]`; `xv` stands for that pure
per-particle function. -/
def computeXMass {σ : Type} (xv : σ → ℕ → ℚ) (startIndex endIndex : ℕ)
    (d : DensityData σ) : DensityData σ :=
  { d with xm := applyRange (fun i _ => xv d.fields i) startIndex endIndex d.xm }

/-- `sph::computeDensity` (host path): swap `xm`/`rho`, compute x-mass into
the swapped buffer, swap back, then `rho[i] = m[i] / rho[i]` over the index
range. -/
def computeDensity {σ : Type} (xv : σ → ℕ → ℚ) (startIndex endIndex : ℕ)
    (d : DensityData σ) : DensityData σ :=
  let d1 : DensityData σ := { d with xm := d.rho, rho := d.xm }
  let d2 := computeXMass xv startIndex endIndex d1
  let d3 : DensityData σ := { d2 with xm := d2.rho, rho := d2.xm }
  { d3 with rho := applyRange (fun i r => d3.m i / r) startIndex endIndex d3.rho }

/-- C10 — For every index `i ∈ [startIndex, endIndex)`, `computeDensity`
sets `rho[i] = m[i] / X[i]` where `X[i]` is the per-particle x-mass value
computed by `computeXMass` on the current state, while the `xm` buffer and
every `rho` entry outside `[startIndex, endIndex)` are unchanged by the
call (the two buffer swaps restore `xm` and confine writes to the given
range). -/
theorem computeDensity_spec {σ : Type} (xv : σ → ℕ → ℚ)
    (startIndex endIndex : ℕ) (d : DensityData σ)
    (hrange : endIndex ≤ d.rho.length) :
    (∀ i : ℕ, startIndex ≤ i → i < endIndex →
      (computeDensity xv startIndex endIndex d).rho.getD i 0 =
        d.m i / xv d.fields i) ∧
    (computeDensity xv startIndex endIndex d).xm = d.xm ∧
    (computeDensity xv startIndex endIndex d).fields = d.fields ∧
    (∀ i : ℕ, i < startIndex ∨ endIndex ≤ i →
      (computeDensity xv startIndex endIndex d).rho.getD i 0 =
        d.rho.getD i 0) := by
  refine ⟨?_, rfl, rfl, ?_⟩
  · intro i hsi hie
    have hix : i < d.rho.length := lt_of_lt_of_le hie hrange
    show (applyRange (fun i r => d.m i / r) startIndex endIndex
        (applyRange (fun i _ => xv d.fields i) startIndex endIndex d.rho)).getD i 0 = _
    rw [applyRange_getD,
      if_pos ⟨hsi, hie, by rw [applyRange_length]; exact hix⟩,
      applyRange_getD, if_pos ⟨hsi, hie, hix⟩]
  · intro i hi
    have hnot : ¬ (startIndex ≤ i ∧ i < endIndex ∧
        i < (applyRange (fun i _ => xv d.fields i) startIndex endIndex d.rho).length) := by
      rintro ⟨ha, hb, _⟩
      omega
    have hnot' : ¬ (startIndex ≤ i ∧ i < endIndex ∧ i < d.rho.length) := by
      rintro ⟨ha, hb, _⟩
      omega
    show (applyRange (fun i r => d.m i / r) startIndex endIndex
        (applyRange (fun i _ => xv d.fields i) startIndex endIndex d.rho)).getD i 0 = _
    rw [applyRange_getD, if_neg hnot, applyRange_getD, if_neg hnot']

/-- Witness for C10 with a trivial field component, `m = const 6`,
`X = const 2`, `xm = [7, 7, 7]`, `rho = [1, 1, 1]` over the range
`[1, 3)`. -/
theorem computeDensity_spec_witness :
    ((3 : ℕ) ≤ ([1, 1, 1] : List ℚ).length) ∧
    ((∀ i : ℕ, 1 ≤ i → i < 3 →
      (computeDensity (fun (_ : Unit) _ => (2 : ℚ)) 1 3
        ⟨(), fun _ => 6, [7, 7, 7], [1, 1, 1]⟩).rho.getD i 0 =
        (fun (_ : ℕ) => (6 : ℚ)) i / (fun (_ : ℕ) => (2 : ℚ)) i) ∧
    (computeDensity (fun (_ : Unit) _ => (2 : ℚ)) 1 3
        ⟨(), fun _ => 6, [7, 7, 7], [1, 1, 1]⟩).xm = [7, 7, 7] ∧
    (computeDensity (fun (_ : Unit) _ => (2 : ℚ)) 1 3
        ⟨(), fun _ => 6, [7, 7, 7], [1, 1, 1]⟩).fields = () ∧
    (∀ i : ℕ, i < 1 ∨ 3 ≤ i →
      (computeDensity (fun (_ : Unit) _ => (2 : ℚ)) 1 3
        ⟨(), fun _ => 6, [7, 7, 7], [1, 1, 1]⟩).rho.getD i 0 =
        ([1, 1, 1] : List ℚ).getD i 0)) :=
  ⟨by decide,
    computeDensity_spec (fun (_ : Unit) _ => (2 : ℚ)) 1 3
      ⟨(), fun _ => 6, [7, 7, 7], [1, 1, 1]⟩ (by decide)⟩

end SPHEXA
